import Mathlib

/-!  Verification of the skydns `msg/service.go` core: record synthesis
(`NewSRV`, `NewA`, ..., `NewPTR`), key/domain mapping (`Path`, `Domain`,
`PathWithWildcard`), the `Group` selection algorithm and the `split255`
text chunker.

Go strings are modelled as lists of characters (`Str`), one list element
per byte of the Go string; every concrete input in this file is ASCII,
where the two views coincide, and byte-indexed loops of the source become
index-carrying recursions over suffixes.  The few library functions the
source calls (`dns.Fqdn`, `dns.NextLabel`, `dns.SplitDomainName`,
`path.Join`, `strings.Split/Join/Count`) are embedded with the semantics
of the library versions vendored by skydns; where a model is only exact
on a restricted input class (e.g. `path.Join` on clean segments) the
definition's comment says so and the theorems carry the corresponding
hypotheses.  -/

set_option autoImplicit false

namespace Msg

/-- A Go string: a list of characters, one element per byte. -/
abbrev Str := List Char

/-- The `Service` struct of msg/service.go.  Go `string` becomes `Str`,
Go `int` becomes `Int`, Go `uint32` becomes `Nat`. -/
structure Service where
  Host : Str := []
  Port : Int := 0
  Priority : Int := 0
  Weight : Int := 0
  Text : Str := []
  Ttl : Nat := 0
  TargetStrip : Int := 0
  Group : Str := []
  Key : Str := []
  deriving DecidableEq

/-- `dns.TypeA` -/
def TypeA : Nat := 1
/-- `dns.TypeNS` -/
def TypeNS : Nat := 2
/-- `dns.TypeCNAME` -/
def TypeCNAME : Nat := 5
/-- `dns.TypePTR` -/
def TypePTR : Nat := 12
/-- `dns.TypeTXT` -/
def TypeTXT : Nat := 16
/-- `dns.TypeAAAA` -/
def TypeAAAA : Nat := 28
/-- `dns.TypeSRV` -/
def TypeSRV : Nat := 33
/-- `dns.ClassINET` -/
def ClassINET : Nat := 1

/-- `dns.RR_Header` (the fields the source sets). -/
structure RR_Header where
  Name : Str
  Rrtype : Nat
  Class : Nat
  Ttl : Nat
  deriving DecidableEq

/-- `net.IP` is a byte slice; modelled as a list of naturals.  The source
never inspects it, it is stored as given. -/
abbrev IP := List Nat

/-- `dns.SRV` rdata. -/
structure SRV where
  Hdr : RR_Header
  Priority : Nat
  Weight : Nat
  Port : Nat
  Target : Str
  deriving DecidableEq

/-- `dns.A` rdata. -/
structure A where
  Hdr : RR_Header
  A : IP
  deriving DecidableEq

/-- `dns.AAAA` rdata. -/
structure AAAA where
  Hdr : RR_Header
  AAAA : IP
  deriving DecidableEq

/-- `dns.CNAME` rdata. -/
structure CNAME where
  Hdr : RR_Header
  Target : Str
  deriving DecidableEq

/-- `dns.NS` rdata. -/
structure NS where
  Hdr : RR_Header
  Ns : Str
  deriving DecidableEq

/-- `dns.TXT` rdata. -/
structure TXT where
  Hdr : RR_Header
  Txt : List Str
  deriving DecidableEq

/-- `dns.PTR` rdata. -/
structure PTR where
  Hdr : RR_Header
  Ptr : Str
  deriving DecidableEq

/-- `dns.IsFqdn(s)`: true when `s` is nonempty and its last byte is a
dot (the library version skydns vendors has no escape handling here). -/
def isFqdn (s : Str) : Bool :=
  match s.getLast? with
  | none => false
  | some c => c == '.'

/-- `dns.Fqdn(s)`: append a trailing dot unless already fully
qualified. -/
def fqdn (s : Str) : Str :=
  if isFqdn s then s else s ++ ['.']

/-- Body of the `dns.NextLabel` scan loop: the Go loop runs an index `i`
from `offset` while `i < len(s)-1`, tracking a `quote` flag for
backslash escapes, and returns `(i+1, false)` at the first unescaped
dot, else `(i+1, true)` when the loop ends.  Here the remaining suffix
`s.drop i` is carried alongside the absolute index `i` (so the
one-element base case is exactly `i = len s - 1`). -/
def nextLabelAux : Str → Bool → Nat → Nat × Bool
  | [], _, i => (i + 1, true)
  | [_], _, i => (i + 1, true)
  | c :: c2 :: rest, quote, i =>
    if c = '\\' then nextLabelAux (c2 :: rest) (!quote) (i + 1)
    else if c = '.' then
      if quote then nextLabelAux (c2 :: rest) false (i + 1)
      else (i + 1, false)
    else nextLabelAux (c2 :: rest) false (i + 1)

/-- `dns.NextLabel(s, offset)`: index of the start of the next label and
an end-of-string flag. -/
def nextLabel (s : Str) (offset : Nat) : Nat × Bool :=
  nextLabelAux (s.drop offset) false offset

/-- The strip loop of `NewSRV`: `offset, end := 0, false` followed by
`TargetStrip` iterations of `offset, end = dns.NextLabel(host, offset)`
(each iteration overwrites `end`). -/
def stripIter (host : Str) : Nat → Nat × Bool
  | 0 => (0, false)
  | k + 1 => nextLabel host (stripIter host k).1

/-- Go conversion `uint16(x)` for `x : int`: the low 16 bits. -/
def uint16 (x : Int) : Nat := (x % 65536).toNat

/-- `split255` helper loop: starting with `p, i = 0, 255`, append
`s[p:i]` while `i <= len(s)`, else append `s[p:]` and stop; `i` is
always `p + 255`. -/
def split255Go (s : Str) (p : Nat) : List Str :=
  if h : p + 255 ≤ s.length then
    (s.drop p).take 255 :: split255Go s (p + 255)
  else
    [s.drop p]
termination_by s.length - p
decreasing_by simp_wf; omega

/-- `split255(s)`: split a string into 255 byte chunks. -/
def split255 (s : Str) : List Str :=
  if s.length < 255 then [s] else split255Go s 0

/-- `(*Service).NewSRV(name, weight)`. -/
def Service.NewSRV (s : Service) (name : Str) (weight : Nat) : SRV :=
  let host := fqdn s.Host
  let oe := stripIter host s.TargetStrip.toNat
  -- if end { offset = 0 }; host = host[offset:]
  let host2 := if oe.2 then host else host.drop oe.1
  { Hdr := { Name := name, Rrtype := TypeSRV, Class := ClassINET, Ttl := s.Ttl },
    Priority := uint16 s.Priority, Weight := weight, Port := uint16 s.Port,
    Target := host2 }

/-- `(*Service).NewA(name, ip)`. -/
def Service.NewA (s : Service) (name : Str) (ip : IP) : A :=
  { Hdr := { Name := name, Rrtype := TypeA, Class := ClassINET, Ttl := s.Ttl }, A := ip }

/-- `(*Service).NewAAAA(name, ip)`. -/
def Service.NewAAAA (s : Service) (name : Str) (ip : IP) : AAAA :=
  { Hdr := { Name := name, Rrtype := TypeAAAA, Class := ClassINET, Ttl := s.Ttl }, AAAA := ip }

/-- `(*Service).NewCNAME(name, target)`. -/
def Service.NewCNAME (s : Service) (name : Str) (target : Str) : CNAME :=
  { Hdr := { Name := name, Rrtype := TypeCNAME, Class := ClassINET, Ttl := s.Ttl }, Target := target }

/-- `(*Service).NewNS(name, target)`. -/
def Service.NewNS (s : Service) (name : Str) (target : Str) : NS :=
  { Hdr := { Name := name, Rrtype := TypeNS, Class := ClassINET, Ttl := s.Ttl }, Ns := target }

/-- `(*Service).NewTXT(name)`. -/
def Service.NewTXT (s : Service) (name : Str) : TXT :=
  { Hdr := { Name := name, Rrtype := TypeTXT, Class := ClassINET, Ttl := s.Ttl }, Txt := split255 s.Text }

/-- `(*Service).NewPTR(name, ttl)`. -/
def Service.NewPTR (s : Service) (name : Str) (ttl : Nat) : PTR :=
  { Hdr := { Name := name, Rrtype := TypePTR, Class := ClassINET, Ttl := ttl }, Ptr := fqdn s.Host }

/-- `strings.Split(s, string(c))` for a one-byte separator: split on
every occurrence of `c`, keeping empty fields. -/
def splitOnChar (c : Char) : Str → List Str
  | [] => [[]]
  | x :: xs =>
    if x = c then [] :: splitOnChar c xs
    else
      match splitOnChar c xs with
      | [] => [[x]]
      | h :: t => (x :: h) :: t

/-- `strings.Join(l, string(c))` for a one-byte separator. -/
def intercalateChar (c : Char) : List Str → Str
  | [] => []
  | [x] => x
  | x :: y :: rest => x ++ c :: intercalateChar c (y :: rest)

/-- The dot-terminated spelling of a label list:
`dotTerm [a, b] = a ++ "." ++ b ++ "."`.  Used to state which strings
are well-formed fully-qualified names. -/
def dotTerm : List Str → Str
  | [] => []
  | l :: ls => l ++ '.' :: dotTerm ls

/-- `dns.SplitDomainName(s)` for backslash-free inputs: empty string and
the root name give no labels, otherwise split on dots after removing a
trailing dot. -/
def splitDomainName (s : Str) : List Str :=
  if s = [] then []
  else if isFqdn s then
    match s.dropLast with
    | [] => []
    | t => splitOnChar '.' t
  else splitOnChar '.' s

/-- The fixed storage root `"/skydns"`. -/
def skydnsRoot : Str := ['/', 's', 'k', 'y', 'd', 'n', 's']

/-- `path.Join(append([]string{"/skydns/"}, l...)...)` for label lists
whose elements are nonempty and contain no slash and no dot characters
(on such segments `path.Clean` only removes the duplicate and trailing
slashes, giving exactly this concatenation). -/
def pathJoinSkydns (l : List Str) : Str :=
  if l = [] then skydnsRoot
  else skydnsRoot ++ '/' :: intercalateChar '/' l

/-- `Path(s)`: split into labels, reverse (the in-place swap loop), join
under the root. -/
def Path (s : Str) : Str :=
  pathJoinSkydns ((splitDomainName s).reverse)

/-- The reversal loop of `Domain`: `for i, j := 1, len(l)-1; i < j; ...`
reverses the sublist from index 1 on, keeping element 0. -/
def reverseTail : List Str → List Str
  | [] => []
  | x :: xs => x :: xs.reverse

/-- `Domain(s)`: split on slashes, reverse from index 1, join the
segments `l[1:len(l)-1]` with dots and fully qualify.  (For an input
without any slash the Go slice `l[1:0]` would panic; that case is
outside every claim and modelled as the empty segment list.) -/
def Domain (s : Str) : Str :=
  let l := reverseTail (splitOnChar '/' s)
  fqdn (intercalateChar '.' ((l.drop 1).dropLast))

/-- The scan loop of `PathWithildcard`: walk the reversed labels, and at
the first `"*"` stop with the labels seen so far and the flag `true`. -/
def pwwScan : List Str → List Str → List Str × Bool
  | pre, [] => (pre, false)
  | pre, k :: rest => if k = ['*'] then (pre, true) else pwwScan (pre ++ [k]) rest

/-- `PathWithWildcard(s)`. -/
def PathWithWildcard (s : Str) : Str × Bool :=
  let r := pwwScan [] ((splitDomainName s).reverse)
  (pathJoinSkydns r.1, r.2)

/-- The loop of `Group`: `sx` and `slashes` are fixed, the remaining
list is scanned together with the running index `i`, the established
`group`, the first-time flag `count` and the accumulator `ret`.  The
block after the depth check appears twice: once for the fall-through
from the top-depth branch (an entry whose nonempty `Group` equals the
established one) and once for the plain else; after that block `count`
is always false. -/
def groupGo (sx : List Service) (slashes : Nat) :
    List Service → Nat → Str → Bool → List Service → List Service
  | [], _, _, _, ret => ret
  | s :: rest, i, group, count, ret =>
    if count ∧ s.Key.count '/' = slashes then
      if s.Group = [] then
        groupGo sx slashes rest (i + 1) group count ret
      else if group = [] then
        groupGo sx slashes rest (i + 1) s.Group count ret
      else if s.Group ≠ [] ∧ s.Group ≠ group then
        sx
      else
        -- fall through to the block below the depth check
        if group = [] then sx
        else
          let ret1 := if count then sx.take i else ret
          let ret2 := if s.Group = [] ∨ s.Group = group then ret1 ++ [s] else ret1
          groupGo sx slashes rest (i + 1) group false ret2
    else
      if group = [] then sx
      else
        let ret1 := if count then sx.take i else ret
        let ret2 := if s.Group = [] ∨ s.Group = group then ret1 ++ [s] else ret1
        groupGo sx slashes rest (i + 1) group false ret2

/-- `Group(sx)` of msg/service.go. -/
def Group (sx : List Service) : List Service :=
  match sx with
  | [] => sx
  | s0 :: _ => groupGo sx (s0.Key.count '/') sx 0 [] true []

/-! ## Lemmas about the `Group` scan -/

/-- Entries at the top depth with empty `Group` are skipped by the scan,
leaving all state but the index unchanged. -/
theorem groupGo_skip (sx : List Service) (slashes : Nat) (l : List Service)
    (g : Str) (ret : List Service) :
    ∀ (a : List Service) (i : Nat),
      (∀ x ∈ a, x.Key.count '/' = slashes ∧ x.Group = []) →
      groupGo sx slashes (a ++ l) i g true ret =
        groupGo sx slashes l (i + a.length) g true ret := by
  intro a
  induction a with
  | nil => intro i _; simp
  | cons x a ih =>
    intro i ha
    obtain ⟨hd, hg⟩ := ha x (List.mem_cons_self x a)
    have ha' := fun y hy => ha y (List.mem_cons_of_mem x hy)
    have step : groupGo sx slashes ((x :: a) ++ l) i g true ret =
        groupGo sx slashes (a ++ l) (i + 1) g true ret := by
      simp only [List.cons_append, groupGo, List.append_eq]
      rw [if_pos ⟨by trivial, hd⟩, if_pos hg]
    rw [step, ih (i + 1) ha']
    have hlen : i + 1 + a.length = i + (x :: a).length := by
      simp only [List.length_cons]; omega
    rw [hlen]

/-- If every entry of the remaining list sits at the top depth and at
most one of them carries a nonempty `Group`, the scan never leaves the
top-depth branch and finally returns the accumulator. -/
theorem groupGo_flat_le_one (sx : List Service) (slashes : Nat) :
    ∀ (l : List Service) (i : Nat) (ret : List Service),
      (∀ x ∈ l, x.Key.count '/' = slashes) →
      l.countP (fun s => decide (s.Group ≠ [])) ≤ 1 →
      groupGo sx slashes l i [] true ret = ret := by
  intro l
  induction l with
  | nil => intro i ret _ _; rfl
  | cons s rest ih =>
    intro i ret hd hone
    have hsd := hd s (List.mem_cons_self s rest)
    have hd' := fun y hy => hd y (List.mem_cons_of_mem s hy)
    simp only [groupGo]
    rw [if_pos ⟨by trivial, hsd⟩]
    by_cases hg : s.Group = []
    · rw [if_pos hg]
      refine ih (i + 1) ret hd' ?_
      rw [List.countP_cons] at hone
      simpa [hg] using hone
    · rw [if_neg hg, if_pos (trivial : True)]
      have hzero : rest.countP (fun s => decide (s.Group ≠ [])) = 0 := by
        rw [List.countP_cons] at hone
        have h1 : rest.countP (fun s => decide (s.Group ≠ [])) + 1 ≤ 1 := by
          simpa [hg] using hone
        omega
      have hrest : ∀ x ∈ rest, x.Key.count '/' = slashes ∧ x.Group = [] := by
        intro x hx
        refine ⟨hd' x hx, ?_⟩
        have := List.countP_eq_zero.mp hzero x hx
        simpa using this
      have := groupGo_skip sx slashes [] s.Group ret rest (i + 1) hrest
      simpa using this

/-- Unfolding of `Group` on a nonempty list. -/
theorem Group_cons (s0 : Service) (t : List Service) :
    Group (s0 :: t) = groupGo (s0 :: t) (s0.Key.count '/') (s0 :: t) 0 [] true [] := rfl

/-- C1 counterexample: all three entries sit at the same depth and the
top-depth entries carry the nonempty, differing groups "x" and "y", yet
`Group` does not return the input unchanged — the second "x" entry falls
through and seeds the result, so the later disagreeing "y" entry is
silently filtered out instead of aborting the grouping. -/
theorem group_top_disagreement_cex :
    (∀ x ∈ ([{ Key := ("/a/b").toList, Group := ("x").toList },
             { Key := ("/a/b").toList, Group := ("x").toList },
             { Key := ("/a/b").toList, Group := ("y").toList }] : List Service),
        x.Key.count '/' = 2) ∧
    Group [{ Key := ("/a/b").toList, Group := ("x").toList },
           { Key := ("/a/b").toList, Group := ("x").toList },
           { Key := ("/a/b").toList, Group := ("y").toList }] =
      [{ Key := ("/a/b").toList, Group := ("x").toList },
       { Key := ("/a/b").toList, Group := ("x").toList }] ∧
    Group [{ Key := ("/a/b").toList, Group := ("x").toList },
           { Key := ("/a/b").toList, Group := ("x").toList },
           { Key := ("/a/b").toList, Group := ("y").toList }] ≠
      [{ Key := ("/a/b").toList, Group := ("x").toList },
       { Key := ("/a/b").toList, Group := ("x").toList },
       { Key := ("/a/b").toList, Group := ("y").toList }] := by
  refine ⟨by decide, by decide, by decide⟩

/-- C1 (amended): if the input begins with top-depth entries that are,
in order, zero or more empty-`Group` entries, one entry with nonempty
group `g₁`, zero or more further empty-`Group` entries, and then an
entry with a nonempty group different from `g₁` — i.e. the first two
nonempty `Group` values seen at the top depth disagree — then `Group`
returns the original, unfiltered input unchanged. -/
theorem group_aborts_on_early_top_disagreement
    (a b r : List Service) (s1 s2 : Service) (slashes : Nat)
    (ha : ∀ x ∈ a, x.Key.count '/' = slashes ∧ x.Group = [])
    (hb : ∀ x ∈ b, x.Key.count '/' = slashes ∧ x.Group = [])
    (h1d : s1.Key.count '/' = slashes) (h1g : s1.Group ≠ [])
    (h2d : s2.Key.count '/' = slashes) (h2g : s2.Group ≠ [])
    (hgg : s2.Group ≠ s1.Group) :
    Group (a ++ s1 :: (b ++ s2 :: r)) = a ++ s1 :: (b ++ s2 :: r) := by
  suffices key :
      groupGo (a ++ s1 :: (b ++ s2 :: r)) slashes (a ++ s1 :: (b ++ s2 :: r)) 0 [] true [] =
        a ++ s1 :: (b ++ s2 :: r) by
    cases a with
    | nil =>
      rw [List.nil_append] at key ⊢
      rw [Group_cons, h1d]
      exact key
    | cons x a' =>
      rw [List.cons_append] at key ⊢
      rw [Group_cons, (ha x (List.mem_cons_self x a')).1]
      exact key
  have h1 := groupGo_skip (a ++ s1 :: (b ++ s2 :: r)) slashes (s1 :: (b ++ s2 :: r)) [] [] a 0 ha
  have h2 :
      groupGo (a ++ s1 :: (b ++ s2 :: r)) slashes (s1 :: (b ++ s2 :: r)) (0 + a.length) [] true [] =
        groupGo (a ++ s1 :: (b ++ s2 :: r)) slashes (b ++ s2 :: r) (0 + a.length + 1) s1.Group true [] := by
    simp only [groupGo]
    rw [if_pos ⟨by trivial, h1d⟩, if_neg h1g, if_pos (trivial : True)]
  have h3 := groupGo_skip (a ++ s1 :: (b ++ s2 :: r)) slashes (s2 :: r) s1.Group [] b
    (0 + a.length + 1) hb
  have h4 :
      groupGo (a ++ s1 :: (b ++ s2 :: r)) slashes (s2 :: r) (0 + a.length + 1 + b.length)
          s1.Group true [] = a ++ s1 :: (b ++ s2 :: r) := by
    simp only [groupGo]
    rw [if_pos ⟨by trivial, h2d⟩, if_neg h2g, if_neg h1g, if_pos ⟨h2g, hgg⟩]
  rw [h1, h2, h3, h4]

/-- C1 witness: an input shaped `[x-entry, y-entry, deeper z-entry]`
where the first two nonempty top-depth groups disagree is returned
unchanged. -/
theorem group_aborts_on_early_top_disagreement_witness :
    Group [{ Key := ("/a/b").toList, Group := ("x").toList },
           { Key := ("/a/b").toList, Group := ("y").toList },
           { Key := ("/a/b/c").toList, Group := ("z").toList }] =
      [{ Key := ("/a/b").toList, Group := ("x").toList },
       { Key := ("/a/b").toList, Group := ("y").toList },
       { Key := ("/a/b/c").toList, Group := ("z").toList }] :=
  group_aborts_on_early_top_disagreement [] []
    [{ Key := ("/a/b/c").toList, Group := ("z").toList }]
    { Key := ("/a/b").toList, Group := ("x").toList }
    { Key := ("/a/b").toList, Group := ("y").toList } 2
    (by decide) (by decide) (by decide) (by decide) (by decide) (by decide) (by decide)

/-- C2 counterexample: a one-element input (a single top-depth entry, no
deeper entries) is not returned untouched — the loop only ever skips or
establishes the group, never seeds `ret`, and the function returns the
still-empty accumulator. -/
theorem group_singleton_cex :
    Group [{ Key := ("/a/b").toList, Group := ("x").toList }] ≠
      [({ Key := ("/a/b").toList, Group := ("x").toList } : Service)] := by
  decide

/-- C2 (amended): for every one-element input list, `Group` returns the
empty list (not the original list). -/
theorem group_singleton_returns_empty (s : Service) : Group [s] = [] := by
  by_cases h : s.Group = [] <;> simp [Group, groupGo, h]

/-- C3: a nonempty input whose entries all sit at the depth of the first
entry and which carries at most one nonempty `Group` makes `Group`
return the empty list, not the original input. -/
theorem group_flat_at_most_one_returns_empty (sx : List Service) (hne : sx ≠ [])
    (hd : ∀ x ∈ sx, x.Key.count '/' = (sx.head hne).Key.count '/')
    (hone : sx.countP (fun s => decide (s.Group ≠ [])) ≤ 1) :
    Group sx = [] := by
  cases sx with
  | nil => exact absurd rfl hne
  | cons s0 t =>
    have hd' : ∀ x ∈ s0 :: t, x.Key.count '/' = s0.Key.count '/' := by
      simpa using hd
    exact groupGo_flat_le_one (s0 :: t) (s0.Key.count '/') (s0 :: t) 0 [] hd' hone

/-- C3 witness: two same-depth entries, exactly one of them grouped,
collapse to the empty list. -/
theorem group_flat_at_most_one_returns_empty_witness :
    Group [{ Key := ("/a/b").toList, Group := ("x").toList },
           { Key := ("/a/b").toList }] = [] :=
  group_flat_at_most_one_returns_empty
    [{ Key := ("/a/b").toList, Group := ("x").toList }, { Key := ("/a/b").toList }]
    (by decide) (by decide) (by decide)

/-- C7: on the spec's four-element example the result is the two
top-depth entries plus the two deeper entries whose group is empty or
"x", i.e. exactly the first three input elements in input order. -/
theorem group_example_deeper_levels :
    Group [{ Key := ("/a/b").toList, Group := ("x").toList },
           { Key := ("/a/b/c").toList, Group := [] },
           { Key := ("/a/b/c").toList, Group := ("x").toList },
           { Key := ("/a/b/c").toList, Group := ("z").toList }] =
      [{ Key := ("/a/b").toList, Group := ("x").toList },
       { Key := ("/a/b/c").toList, Group := [] },
       { Key := ("/a/b/c").toList, Group := ("x").toList }] := by
  decide

/-- C9: with `TargetStrip = 1` and the synthesized name `"a.b.c.d."` (the
name synthesized for the IP-literal host `"1.2.3.4"`), the SRV target is
`"b.c.d."` — the leftmost label is stripped. -/
theorem newSRV_strip_one_example :
    (Service.NewSRV { Host := ("a.b.c.d.").toList, TargetStrip := 1 }
        (("srv.example.").toList) 10).Target = ("b.c.d.").toList := by
  decide

/-- C10: `NewA`, `NewAAAA`, `NewCNAME`, `NewNS` and `NewTXT` build the
uniform header `{Name = n, Class = INET, Ttl = s.Ttl}` with the record
type matching the builder, while `NewPTR` puts the caller-supplied ttl
into the header and points at the fully-qualified host. -/
theorem record_builders_headers (s : Service) (n : Str) (ip4 ip6 : IP)
    (ctarget nstarget : Str) (ttl : Nat) :
    (s.NewA n ip4).Hdr = { Name := n, Rrtype := TypeA, Class := ClassINET, Ttl := s.Ttl } ∧
    (s.NewA n ip4).A = ip4 ∧
    (s.NewAAAA n ip6).Hdr = { Name := n, Rrtype := TypeAAAA, Class := ClassINET, Ttl := s.Ttl } ∧
    (s.NewAAAA n ip6).AAAA = ip6 ∧
    (s.NewCNAME n ctarget).Hdr = { Name := n, Rrtype := TypeCNAME, Class := ClassINET, Ttl := s.Ttl } ∧
    (s.NewNS n nstarget).Hdr = { Name := n, Rrtype := TypeNS, Class := ClassINET, Ttl := s.Ttl } ∧
    (s.NewTXT n).Hdr = { Name := n, Rrtype := TypeTXT, Class := ClassINET, Ttl := s.Ttl } ∧
    (s.NewPTR n ttl).Hdr = { Name := n, Rrtype := TypePTR, Class := ClassINET, Ttl := ttl } ∧
    (s.NewPTR n ttl).Ptr = fqdn s.Host :=
  ⟨rfl, rfl, rfl, rfl, rfl, rfl, rfl, rfl, rfl⟩

/-! ## Lemmas about `split255` -/

/-- Concatenating the chunks the `split255` loop produces from position
`p` gives back the suffix of the input from `p`. -/
theorem split255Go_join (s : Str) :
    ∀ (n p : Nat), s.length - p ≤ n → (split255Go s p).flatten = s.drop p := by
  intro n
  induction n with
  | zero =>
    intro p hp
    rw [split255Go, dif_neg (by omega)]
    simp
  | succ n ih =>
    intro p hp
    rw [split255Go]
    by_cases h : p + 255 ≤ s.length
    · rw [dif_pos h]
      simp only [List.flatten_cons]
      rw [ih (p + 255) (by omega), ← List.drop_drop]
      exact List.take_append_drop 255 (s.drop p)
    · rw [dif_neg h]
      simp

/-- Every chunk the `split255` loop produces is at most 255 bytes. -/
theorem split255Go_chunk_le (s : Str) :
    ∀ (n p : Nat), s.length - p ≤ n → ∀ c ∈ split255Go s p, c.length ≤ 255 := by
  intro n
  induction n with
  | zero =>
    intro p hp c hc
    rw [split255Go, dif_neg (by omega)] at hc
    simp at hc
    subst hc
    rw [List.length_drop]
    omega
  | succ n ih =>
    intro p hp c hc
    rw [split255Go] at hc
    by_cases h : p + 255 ≤ s.length
    · rw [dif_pos h] at hc
      rcases List.mem_cons.mp hc with h1 | h2
      · subst h1
        rw [List.length_take]
        omega
      · exact ih (p + 255) (by omega) c h2
    · rw [dif_neg h] at hc
      simp at hc
      subst hc
      rw [List.length_drop]
      omega

/-- C6: every element of the chunk list `split255` produces (the
text-string list of `NewTXT`) is at most 255 bytes long, concatenating
all elements in order reproduces the input exactly, and an input shorter
than 255 bytes yields the single-element list holding the whole input
unchanged. -/
theorem split255_spec (s : Str) (sv : Service) (nm : Str) :
    (∀ c ∈ split255 s, c.length ≤ 255) ∧
    (split255 s).flatten = s ∧
    (s.length < 255 → split255 s = [s]) ∧
    (sv.NewTXT nm).Txt = split255 sv.Text := by
  refine ⟨?_, ?_, ?_, rfl⟩
  · intro c hc
    by_cases h : s.length < 255
    · simp [split255, h] at hc
      subst hc
      omega
    · simp [split255, h] at hc
      exact split255Go_chunk_le s s.length 0 (by omega) c hc
  · by_cases h : s.length < 255
    · simp [split255, h]
    · simp only [split255, if_neg h]
      simpa using split255Go_join s s.length 0 (by omega)
  · intro h
    simp [split255, h]

/-- C6 witness: a two-byte input is returned as a single chunk. -/
theorem split255_spec_witness :
    split255 (("ab").toList) = [("ab").toList] :=
  (split255_spec (("ab").toList) {} []).2.2.1 (by decide)

/-! ## Lemmas about `nextLabel` and the SRV strip loop -/

/-- The returned index of the label scan is the start index plus an
offset that only depends on the scanned suffix; the end flag only
depends on the suffix. -/
theorem nextLabelAux_shift : ∀ (t : Str) (q : Bool) (i : Nat),
    nextLabelAux t q i = ((nextLabelAux t q 0).1 + i, (nextLabelAux t q 0).2) := by
  intro t
  induction t with
  | nil => intro q i; simp [nextLabelAux, Nat.add_comm]
  | cons c t ih =>
    cases t with
    | nil => intro q i; simp [nextLabelAux, Nat.add_comm]
    | cons c2 rest =>
      intro q i
      simp only [nextLabelAux]
      split_ifs with h1 h2 h3
      · rw [ih (!q) (i + 1), ih (!q) (0 + 1)]
        exact Prod.ext (by omega) rfl
      · rw [ih false (i + 1), ih false (0 + 1)]
        exact Prod.ext (by omega) rfl
      · exact Prod.ext (by omega) rfl
      · rw [ih false (i + 1), ih false (0 + 1)]
        exact Prod.ext (by omega) rfl

/-- Scanning a dot-free, backslash-free label followed by a dot and a
nonempty remainder finds the dot and reports the next label start. -/
theorem nextLabelAux_label_mid : ∀ (l : Str), '.' ∉ l → '\\' ∉ l →
    ∀ (rest : Str), rest ≠ [] →
      nextLabelAux (l ++ '.' :: rest) false 0 = (l.length + 1, false) := by
  intro l
  induction l with
  | nil =>
    intro _ _ rest hrest
    cases rest with
    | nil => exact absurd rfl hrest
    | cons r0 rs => simp [nextLabelAux]
  | cons a l ih =>
    intro hdot hbs rest hrest
    have had : ¬ a = '.' := fun h => hdot (by rw [h]; exact List.mem_cons_self _ _)
    have hab : ¬ a = '\\' := fun h => hbs (by rw [h]; exact List.mem_cons_self _ _)
    have hdot' : '.' ∉ l := fun h => hdot (List.mem_cons_of_mem a h)
    have hbs' : '\\' ∉ l := fun h => hbs (List.mem_cons_of_mem a h)
    obtain ⟨y, ys, hy⟩ : ∃ y ys, l ++ '.' :: rest = y :: ys := by
      cases l with
      | nil => exact ⟨'.', rest, rfl⟩
      | cons y ys => exact ⟨y, ys ++ '.' :: rest, rfl⟩
    rw [List.cons_append, hy]
    simp only [nextLabelAux]
    rw [if_neg hab, if_neg had]
    rw [nextLabelAux_shift (y :: ys) false (0 + 1), ← hy]
    rw [ih hdot' hbs' rest hrest]
    exact Prod.ext (by simp) rfl

/-- Scanning the final label of a name (dot-terminated, nothing behind
the dot) runs off the end: it reports the end flag. -/
theorem nextLabelAux_label_last : ∀ (l : Str), '.' ∉ l → '\\' ∉ l →
    nextLabelAux (l ++ ['.']) false 0 = (l.length + 1, true) := by
  intro l
  induction l with
  | nil => intro _ _; simp [nextLabelAux]
  | cons a l ih =>
    intro hdot hbs
    have had : ¬ a = '.' := fun h => hdot (by rw [h]; exact List.mem_cons_self _ _)
    have hab : ¬ a = '\\' := fun h => hbs (by rw [h]; exact List.mem_cons_self _ _)
    have hdot' : '.' ∉ l := fun h => hdot (List.mem_cons_of_mem a h)
    have hbs' : '\\' ∉ l := fun h => hbs (List.mem_cons_of_mem a h)
    obtain ⟨y, ys, hy⟩ : ∃ y ys, l ++ ['.'] = y :: ys := by
      cases l with
      | nil => exact ⟨'.', [], rfl⟩
      | cons y ys => exact ⟨y, ys ++ ['.'], rfl⟩
    rw [List.cons_append, hy]
    simp only [nextLabelAux]
    rw [if_neg hab, if_neg had]
    rw [nextLabelAux_shift (y :: ys) false (0 + 1), ← hy]
    rw [ih hdot' hbs']
    exact Prod.ext (by simp) rfl

/-- A dot-terminated spelling of a nonempty label list is nonempty. -/
theorem dotTerm_ne_nil (ls : List Str) (h : ls ≠ []) : dotTerm ls ≠ [] := by
  cases ls with
  | nil => exact absurd rfl h
  | cons x xs => simp [dotTerm]

/-- While fewer labels have been stripped than the name has, the strip
loop reports no end, and the suffix at the reported offset is exactly
the name with the first `k` labels removed. -/
theorem stripIter_lt (labels : List Str) (hw : ∀ l ∈ labels, '.' ∉ l ∧ '\\' ∉ l) :
    ∀ (k : Nat), k < labels.length →
      ∃ o, stripIter (dotTerm labels) k = (o, false) ∧
        (dotTerm labels).drop o = dotTerm (labels.drop k) := by
  intro k
  induction k with
  | zero => intro _; exact ⟨0, rfl, by simp⟩
  | succ k ih =>
    intro hk
    obtain ⟨o, ho, hdrop⟩ := ih (by omega)
    have hk' : k < labels.length := by omega
    have hcons := List.drop_eq_getElem_cons hk'
    have hlk := hw labels[k] (List.getElem_mem hk')
    have hd2 : labels.drop (k + 1) ≠ [] := by
      intro hnil
      have := congrArg List.length hnil
      rw [List.length_drop] at this
      simp at this
      omega
    have hsuffix : (dotTerm labels).drop o =
        labels[k] ++ '.' :: dotTerm (labels.drop (k + 1)) := by
      rw [hdrop, hcons]; rfl
    have hstep : stripIter (dotTerm labels) (k + 1) = (labels[k].length + 1 + o, false) := by
      show nextLabel (dotTerm labels) (stripIter (dotTerm labels) k).1 = _
      rw [ho]
      show nextLabelAux ((dotTerm labels).drop o) false o = _
      rw [hsuffix, nextLabelAux_shift _ false o,
        nextLabelAux_label_mid labels[k] hlk.1 hlk.2 _ (dotTerm_ne_nil _ hd2)]
    refine ⟨labels[k].length + 1 + o, hstep, ?_⟩
    have hcomm : labels[k].length + 1 + o = o + (labels[k].length + 1) := by omega
    rw [hcomm, ← List.drop_drop, hsuffix]
    have hsplit : labels[k] ++ '.' :: dotTerm (labels.drop (k + 1)) =
        (labels[k] ++ ['.']) ++ dotTerm (labels.drop (k + 1)) := by simp
    have hlen : labels[k].length + 1 = (labels[k] ++ ['.']).length := by simp
    rw [hsplit, hlen, List.drop_left]

/-- Once the strip count reaches the number of labels, the loop reports
the end flag and an offset at or beyond the end of the name. -/
theorem stripIter_ge (labels : List Str) (hw : ∀ l ∈ labels, '.' ∉ l ∧ '\\' ∉ l)
    (hne : labels ≠ []) :
    ∀ (k : Nat), labels.length ≤ k →
      ∃ o, stripIter (dotTerm labels) k = (o, true) ∧ (dotTerm labels).length ≤ o := by
  intro k
  induction k with
  | zero =>
    intro h
    exact absurd (List.eq_nil_of_length_eq_zero (by omega)) hne
  | succ k ih =>
    intro hk
    by_cases h : labels.length ≤ k
    · obtain ⟨o, ho, hlen⟩ := ih h
      refine ⟨o + 1, ?_, by omega⟩
      show nextLabel (dotTerm labels) (stripIter (dotTerm labels) k).1 = _
      rw [ho]
      show nextLabelAux ((dotTerm labels).drop o) false o = _
      rw [List.drop_eq_nil_of_le hlen]
      simp [nextLabelAux, Nat.add_comm]
    · have hk' : k < labels.length := by omega
      obtain ⟨o, ho, hdrop⟩ := stripIter_lt labels hw k hk'
      have hcons := List.drop_eq_getElem_cons hk'
      have hnil : labels.drop (k + 1) = [] := List.drop_eq_nil_of_le (by omega)
      have hlk := hw labels[k] (List.getElem_mem hk')
      have hsuffix : (dotTerm labels).drop o = labels[k] ++ ['.'] := by
        rw [hdrop, hcons, hnil]; rfl
      have hstep : stripIter (dotTerm labels) (k + 1) = (labels[k].length + 1 + o, true) := by
        show nextLabel (dotTerm labels) (stripIter (dotTerm labels) k).1 = _
        rw [ho]
        show nextLabelAux ((dotTerm labels).drop o) false o = _
        rw [hsuffix, nextLabelAux_shift _ false o,
          nextLabelAux_label_last labels[k] hlk.1 hlk.2]
      refine ⟨labels[k].length + 1 + o, hstep, ?_⟩
      have := congrArg List.length hsuffix
      rw [List.length_drop] at this
      simp at this
      omega

/-- `dns.Fqdn` never returns the empty string. -/
theorem fqdn_ne_nil (s : Str) : fqdn s ≠ [] := by
  by_cases h : isFqdn s
  · rw [fqdn, if_pos h]
    cases s with
    | nil => simp [isFqdn] at h
    | cons x xs => simp
  · rw [fqdn, if_neg h]
    simp

/-- C5: for every Service, `NewSRV` copies Priority/Port (as 16-bit
values) from the Service, takes Weight from the caller, and produces as
Target the fully-qualified host with the leftmost `TargetStrip` labels
removed; when stripping that many labels overshoots past the end of the
name, the full unstripped fully-qualified host is used instead, and the
target is never empty.  The hypothesis presents the fully-qualified host
as its (backslash-free) label decomposition. -/
theorem newSRV_spec (s : Service) (name : Str) (weight : Nat) (labels : List Str)
    (hw : ∀ l ∈ labels, '.' ∉ l ∧ '\\' ∉ l)
    (hd : fqdn s.Host = dotTerm labels) :
    (s.NewSRV name weight).Hdr =
      { Name := name, Rrtype := TypeSRV, Class := ClassINET, Ttl := s.Ttl } ∧
    (s.NewSRV name weight).Priority = uint16 s.Priority ∧
    (s.NewSRV name weight).Port = uint16 s.Port ∧
    (s.NewSRV name weight).Weight = weight ∧
    (s.NewSRV name weight).Target =
      (if s.TargetStrip.toNat < labels.length
       then dotTerm (labels.drop s.TargetStrip.toNat) else dotTerm labels) ∧
    (s.NewSRV name weight).Target ≠ [] := by
  have hlabne : labels ≠ [] := by
    intro h
    rw [h] at hd
    exact fqdn_ne_nil s.Host (by simpa [dotTerm] using hd)
  have hunf : (s.NewSRV name weight).Target =
      (if (stripIter (fqdn s.Host) s.TargetStrip.toNat).2 then fqdn s.Host
       else (fqdn s.Host).drop (stripIter (fqdn s.Host) s.TargetStrip.toNat).1) := rfl
  have htarget : (s.NewSRV name weight).Target =
      (if s.TargetStrip.toNat < labels.length
       then dotTerm (labels.drop s.TargetStrip.toNat) else dotTerm labels) := by
    rw [hunf, hd]
    by_cases hk : s.TargetStrip.toNat < labels.length
    · obtain ⟨o, ho, hdrop⟩ := stripIter_lt labels hw _ hk
      rw [ho, if_pos hk]
      simpa using hdrop
    · have hge : labels.length ≤ s.TargetStrip.toNat := by omega
      obtain ⟨o, ho, _⟩ := stripIter_ge labels hw hlabne _ hge
      rw [ho, if_neg hk]
      simp
  refine ⟨rfl, rfl, rfl, rfl, htarget, ?_⟩
  rw [htarget]
  by_cases hk : s.TargetStrip.toNat < labels.length
  · rw [if_pos hk]
    apply dotTerm_ne_nil
    intro hnil
    have := congrArg List.length hnil
    rw [List.length_drop] at this
    simp at this
    omega
  · rw [if_neg hk]
    exact dotTerm_ne_nil _ hlabne

/-- C5 witness: host `"a.b.c"`, one label stripped, target `"b.c."`. -/
theorem newSRV_spec_witness :
    (Service.NewSRV { Host := ("a.b.c").toList, TargetStrip := 1 } (("n.").toList) 7).Weight = 7 ∧
    (Service.NewSRV { Host := ("a.b.c").toList, TargetStrip := 1 } (("n.").toList) 7).Target =
      ("b.c.").toList := by
  have h := newSRV_spec { Host := ("a.b.c").toList, TargetStrip := 1 } (("n.").toList) 7
    [("a").toList, ("b").toList, ("c").toList] (by decide) (by decide)
  refine ⟨h.2.2.2.1, ?_⟩
  rw [h.2.2.2.2.1]
  decide

/-! ## Lemmas about `Path` and `Domain` -/

/-- Splitting a string that does not contain the separator yields one
field. -/
theorem splitOnChar_not_mem (c : Char) : ∀ (x : Str), c ∉ x → splitOnChar c x = [x] := by
  intro x
  induction x with
  | nil => intro _; rfl
  | cons a x ih =>
    intro h
    have ha : ¬ a = c := fun hh => h (by rw [hh]; exact List.mem_cons_self _ _)
    have h' : c ∉ x := fun hh => h (List.mem_cons_of_mem _ hh)
    simp only [splitOnChar]
    rw [if_neg ha, ih h']

/-- Splitting past a separator-free field and one separator produces
that field and continues behind the separator. -/
theorem splitOnChar_append_sep (c : Char) : ∀ (x t : Str), c ∉ x →
    splitOnChar c (x ++ c :: t) = x :: splitOnChar c t := by
  intro x
  induction x with
  | nil =>
    intro t _
    simp only [List.nil_append, splitOnChar]
    rw [if_pos (trivial : True)]
  | cons a x ih =>
    intro t h
    have ha : ¬ a = c := fun hh => h (by rw [hh]; exact List.mem_cons_self _ _)
    have h' : c ∉ x := fun hh => h (List.mem_cons_of_mem _ hh)
    simp only [List.cons_append, splitOnChar, List.append_eq]
    rw [if_neg ha, ih t h']

/-- A separator at the head opens an empty field. -/
theorem splitOnChar_cons_self (c : Char) (t : Str) :
    splitOnChar c (c :: t) = [] :: splitOnChar c t := by
  simp only [splitOnChar]
  rw [if_pos (trivial : True)]

/-- `strings.Split` undoes `strings.Join` when no field contains the
separator. -/
theorem splitOnChar_intercalate (c : Char) : ∀ (L : List Str), L ≠ [] →
    (∀ l ∈ L, c ∉ l) → splitOnChar c (intercalateChar c L) = L := by
  intro L
  induction L with
  | nil => intro h _; exact absurd rfl h
  | cons x L ih =>
    intro _ hmem
    cases L with
    | nil => exact splitOnChar_not_mem c x (hmem x (List.mem_cons_self _ _))
    | cons y ys =>
      have hx : c ∉ x := hmem x (List.mem_cons_self _ _)
      have h3 : intercalateChar c (x :: y :: ys) = x ++ c :: intercalateChar c (y :: ys) := rfl
      rw [h3, splitOnChar_append_sep c x _ hx,
        ih (by simp) (fun l hl => hmem l (List.mem_cons_of_mem _ hl))]

/-- The joined form of `intercalateChar` on a list ending in `lst` ends
in `lst`. -/
theorem intercalateChar_concat (c : Char) : ∀ (init : List Str) (lst : Str),
    ∃ pre, intercalateChar c (init ++ [lst]) = pre ++ lst := by
  intro init
  induction init with
  | nil => intro lst; exact ⟨[], rfl⟩
  | cons x init ih =>
    intro lst
    obtain ⟨pre, hpre⟩ := ih lst
    cases init with
    | nil => exact ⟨x ++ [c], by simp [intercalateChar]⟩
    | cons y ys =>
      refine ⟨x ++ c :: pre, ?_⟩
      simp only [List.cons_append] at hpre ⊢
      simp only [intercalateChar]
      rw [hpre]
      simp

/-- Joining a list whose head field is nonempty gives a nonempty
string. -/
theorem intercalateChar_ne_nil (c : Char) (x : Str) (xs : List Str) (hx : x ≠ []) :
    intercalateChar c (x :: xs) ≠ [] := by
  cases xs with
  | nil => simpa [intercalateChar] using hx
  | cons y ys => simp [intercalateChar]

/-- The dot-terminated spelling is the dot-join plus a trailing dot. -/
theorem dotTerm_eq_concat : ∀ (L : List Str), L ≠ [] →
    dotTerm L = intercalateChar '.' L ++ ['.'] := by
  intro L
  induction L with
  | nil => intro h; exact absurd rfl h
  | cons x L ih =>
    intro _
    cases L with
    | nil => simp [dotTerm, intercalateChar]
    | cons y ys =>
      have h2 : dotTerm (x :: y :: ys) = x ++ '.' :: dotTerm (y :: ys) := rfl
      have h3 : intercalateChar '.' (x :: y :: ys) = x ++ '.' :: intercalateChar '.' (y :: ys) := rfl
      rw [h2, h3, ih (by simp)]
      simp

/-- `dns.SplitDomainName` recovers the labels from their dot-terminated
spelling (labels nonempty and dot-free). -/
theorem splitDomainName_dotTerm (labels : List Str) (hne : labels ≠ [])
    (hlab : ∀ l ∈ labels, l ≠ [] ∧ '.' ∉ l) :
    splitDomainName (dotTerm labels) = labels := by
  have hd := dotTerm_eq_concat labels hne
  have hne2 : dotTerm labels ≠ [] := dotTerm_ne_nil labels hne
  have hfq : isFqdn (dotTerm labels) = true := by
    rw [hd]
    unfold isFqdn
    rw [List.getLast?_concat]
    rfl
  obtain ⟨y, ys, hI⟩ : ∃ y ys, intercalateChar '.' labels = y :: ys := by
    have hIne : intercalateChar '.' labels ≠ [] := by
      cases labels with
      | nil => exact absurd rfl hne
      | cons x xs => exact intercalateChar_ne_nil '.' x xs (hlab x (List.mem_cons_self _ _)).1
    cases h : intercalateChar '.' labels with
    | nil => exact absurd h hIne
    | cons y ys => exact ⟨y, ys, rfl⟩
  simp only [splitDomainName]
  rw [if_neg hne2, if_pos hfq]
  rw [hd, List.dropLast_concat, hI]
  show splitOnChar '.' (y :: ys) = labels
  rw [← hI]
  exact splitOnChar_intercalate '.' labels hne (fun l hl => (hlab l hl).2)

/-- C4: for every well-formed fully-qualified name, presented as its
nonempty list of nonempty, dot/slash/backslash-free labels none of which
is the wildcard label, converting to a storage path and back returns
exactly the same fully-qualified name: `Domain (Path d) = d`. -/
theorem domain_path_roundtrip (labels : List Str) (hne : labels ≠ [])
    (hlab : ∀ l ∈ labels, l ≠ [] ∧ '.' ∉ l ∧ '/' ∉ l ∧ '\\' ∉ l)
    (hwild : ∀ l ∈ labels, l ≠ ['*']) :
    Domain (Path (dotTerm labels)) = dotTerm labels := by
  have hsplit : splitDomainName (dotTerm labels) = labels :=
    splitDomainName_dotTerm labels hne (fun l hl => ⟨(hlab l hl).1, (hlab l hl).2.1⟩)
  have hrevne : labels.reverse ≠ [] := by simpa using hne
  have hpath : Path (dotTerm labels) =
      skydnsRoot ++ '/' :: intercalateChar '/' labels.reverse := by
    rw [Path, hsplit, pathJoinSkydns, if_neg hrevne]
  have hsplit2 : splitOnChar '/' (skydnsRoot ++ '/' :: intercalateChar '/' labels.reverse) =
      [] :: ['s', 'k', 'y', 'd', 'n', 's'] :: labels.reverse := by
    have e1 : skydnsRoot ++ '/' :: intercalateChar '/' labels.reverse =
        '/' :: (['s', 'k', 'y', 'd', 'n', 's'] ++ '/' :: intercalateChar '/' labels.reverse) := rfl
    rw [e1, splitOnChar_cons_self,
      splitOnChar_append_sep '/' ['s', 'k', 'y', 'd', 'n', 's'] _ (by decide),
      splitOnChar_intercalate '/' labels.reverse hrevne
        (fun l hl => (hlab l (List.mem_reverse.mp hl)).2.2.1)]
  have hdom : Domain (skydnsRoot ++ '/' :: intercalateChar '/' labels.reverse) =
      fqdn (intercalateChar '.' labels) := by
    simp only [Domain]
    rw [hsplit2]
    have hrt : reverseTail ([] :: ['s', 'k', 'y', 'd', 'n', 's'] :: labels.reverse) =
        [] :: (labels ++ [['s', 'k', 'y', 'd', 'n', 's']]) := by
      simp [reverseTail]
    rw [hrt]
    simp [List.dropLast_concat]
  have hlast : isFqdn (intercalateChar '.' labels) = false := by
    obtain ⟨init, lst, hcat⟩ : ∃ init lst, labels = init ++ [lst] := by
      rcases List.eq_nil_or_concat labels with h | ⟨init, lst, h⟩
      · exact absurd h hne
      · exact ⟨init, lst, by simpa [List.concat_eq_append] using h⟩
    have hl : lst ≠ [] ∧ '.' ∉ lst := by
      have := hlab lst (by rw [hcat]; simp)
      exact ⟨this.1, this.2.1⟩
    obtain ⟨pre, hpre⟩ := intercalateChar_concat '.' init lst
    obtain ⟨lst0, cl, hcl⟩ : ∃ lst0 cl, lst = lst0 ++ [cl] := by
      rcases List.eq_nil_or_concat lst with h | ⟨l0, c0, h⟩
      · exact absurd h hl.1
      · exact ⟨l0, c0, by simpa [List.concat_eq_append] using h⟩
    have hclne : cl ≠ '.' := fun h => hl.2 (by rw [hcl, h]; simp)
    rw [hcat, hpre, hcl, ← List.append_assoc]
    unfold isFqdn
    rw [List.getLast?_concat]
    simp [hclne]
  rw [hpath, hdom, fqdn, if_neg (by simp [hlast]), ← dotTerm_eq_concat labels hne]

/-- C4 witness: the fully-qualified name `"a.b."` survives the
round trip through the storage-path form. -/
theorem domain_path_roundtrip_witness :
    Domain (Path (("a.b.").toList)) = ("a.b.").toList := by
  have h := domain_path_roundtrip [("a").toList, ("b").toList]
    (by decide) (by decide) (by decide)
  have he : dotTerm [("a").toList, ("b").toList] = ("a.b.").toList := by decide
  rw [he] at h
  exact h

/-! ## Lemmas about `PathWithWildcard` -/

/-- When no label is the wildcard, the scan returns all labels and the
flag false. -/
theorem pwwScan_no_star : ∀ (l pre : List Str), ['*'] ∉ l →
    pwwScan pre l = (pre ++ l, false) := by
  intro l
  induction l with
  | nil => intro pre _; simp [pwwScan]
  | cons k rest ih =>
    intro pre hl
    have hk : k ≠ ['*'] := fun h => hl (h ▸ List.mem_cons_self k rest)
    simp only [pwwScan]
    rw [if_neg hk, ih (pre ++ [k]) (fun h => hl (List.mem_cons_of_mem k h))]
    simp

/-- The scan stops at the first wildcard label, returning the labels
strictly before it and the flag true. -/
theorem pwwScan_star : ∀ (a pre b : List Str), ['*'] ∉ a →
    pwwScan pre (a ++ ['*'] :: b) = (pre ++ a, true) := by
  intro a
  induction a with
  | nil => intro pre b _; simp [pwwScan]
  | cons k rest ih =>
    intro pre b hl
    have hk : k ≠ ['*'] := fun h => hl (h ▸ List.mem_cons_self k rest)
    simp only [List.cons_append, pwwScan, List.append_eq]
    rw [if_neg hk, ih (pre ++ [k]) b (fun h => hl (List.mem_cons_of_mem k h))]
    simp

/-- C8: on a name without a wildcard label, `PathWithWildcard` returns
exactly `(Path s, false)`; when the reversed label sequence is
`a ++ "*" :: b` with no wildcard in `a` (so the `"*"` is the first one),
it returns the path built from `a` alone together with the flag true. -/
theorem pathWithWildcard_spec (s : Str) :
    (['*'] ∉ splitDomainName s → PathWithWildcard s = (Path s, false)) ∧
    (∀ a b : List Str, (splitDomainName s).reverse = a ++ ['*'] :: b → ['*'] ∉ a →
      PathWithWildcard s = (pathJoinSkydns a, true)) := by
  constructor
  · intro h
    have h' : ['*'] ∉ (splitDomainName s).reverse := by simpa using h
    simp only [PathWithWildcard, Path]
    rw [pwwScan_no_star _ [] h']
    simp
  · intro a b hab ha
    simp only [PathWithWildcard]
    rw [hab, pwwScan_star a [] b ha]
    simp

/-- C8 witness: a plain name behaves like `Path` with flag false, and
`"c.*.a.b."` (reversed labels `[b, a, *, c]`) is truncated at the
wildcard, giving the path of `[b, a]` with flag true. -/
theorem pathWithWildcard_spec_witness :
    PathWithWildcard (("a.b.").toList) = (Path (("a.b.").toList), false) ∧
    PathWithWildcard (("c.*.a.b.").toList) =
      (pathJoinSkydns [("b").toList, ("a").toList], true) := by
  constructor
  · exact (pathWithWildcard_spec (("a.b.").toList)).1 (by decide)
  · exact (pathWithWildcard_spec (("c.*.a.b.").toList)).2 [("b").toList, ("a").toList]
      [("c").toList] (by decide) (by decide)

end Msg
